import Mathlib

/-!
Shallow embedding of the two training scripts of the `my-thesis` repository
(`binary_KWS.py` and `first.py`) and proofs of the specification claims.

Tensor elements are modelled as rationals (`ℚ`); a 1-D tensor is a `List ℚ`
and a 2-D tensor a `List (List ℚ)` in row-major order.
-/

namespace BinaryKWS

/-- Elementwise body of `BinarizeSTE.forward` in `binary_KWS.py`:
`torch.where(input >= 0, torch.ones_like(input), -torch.ones_like(input))`. -/
def binarizeElem (x : ℚ) : ℚ :=
  if 0 ≤ x then 1 else -1

/-- `BinarizeSTE.forward` applied elementwise over an input tensor. -/
def BinarizeSTE.forward (input : List ℚ) : List ℚ :=
  input.map binarizeElem

/-- `BinarizeSTE.backward` in `binary_KWS.py`: `return grad_output`.
The first argument models the autograd context holding whatever was saved
from the forward pass; the code never reads it. -/
def BinarizeSTE.backward (ctx : List ℚ) (grad_output : List ℚ) : List ℚ :=
  grad_output

/-- Fixed-length normalization in `SpeechCommandsDataset.__getitem__` of
`binary_KWS.py` (after resampling to `sample_rate = 16000`): pad with zeros
on the right when shorter than 16000 samples, otherwise keep the first
16000 samples. -/
def fixLengthBinary (waveform : List ℚ) : List ℚ :=
  if waveform.length < 16000 then
    waveform ++ List.replicate (16000 - waveform.length) 0
  else
    waveform.take 16000

end BinaryKWS

namespace FirstPy

/-- `SpeechCommandsDataset._preprocess_audio` in `first.py`: the target count
is `int(1 * sample_rate)` at the waveform's NATIVE sample rate (no
resampling happens anywhere in `first.py`); longer waveforms are truncated,
shorter or equal ones right-padded with zeros. -/
def preprocessAudio (sampleRate : ℕ) (waveform : List ℚ) : List ℚ :=
  let numSamples := 1 * sampleRate
  if numSamples < waveform.length then
    waveform.take numSamples
  else
    waveform ++ List.replicate (numSamples - waveform.length) 0

end FirstPy

namespace BinaryKWS

/-- Dot product of two vectors, as used by `torch.nn.functional.linear`. -/
def dotProduct (xs ys : List ℚ) : ℚ :=
  (List.zipWith (fun a b => a * b) xs ys).sum

/-- Model of `torch.nn.functional.linear(input, weight, bias)` for a single
input vector: row `j` of the output is `dot (weight[j]) input (+ bias[j])`. -/
def functionalLinear (input : List ℚ) (weight : List (List ℚ)) (bias : Option (List ℚ)) :
    List ℚ :=
  match bias with
  | none => weight.map (fun row => dotProduct row input)
  | some bs => List.zipWith (fun row bj => dotProduct row input + bj) weight bs

/-- State of a `BinarizeLinearSTE` layer: the stored (continuous) weight
matrix and optional bias vector. -/
structure BinarizeLinearSTE where
  weight : List (List ℚ)
  bias : Option (List ℚ)

/-- `BinarizeLinearSTE.forward` in `binary_KWS.py`: binarize the weight, the
bias (when present) and the input, then apply `F.linear`; state passing is
explicit, so the layer returned alongside the output is the stored state
after the call. -/
def BinarizeLinearSTE.forward (layer : BinarizeLinearSTE) (input : List ℚ) :
    List ℚ × BinarizeLinearSTE :=
  let weight_bin := layer.weight.map BinarizeSTE.forward
  let bias_bin := layer.bias.map BinarizeSTE.forward
  let input_bin := BinarizeSTE.forward input
  (functionalLinear input_bin weight_bin bias_bin, layer)

/-- Warning message printed in `SpeechCommandsDataset.__init__` of
`binary_KWS.py` when a command subdirectory does not exist. -/
def missingDirWarning (datasetDir command : String) : String :=
  "Attenzione: La cartella " ++ datasetDir ++ "/" ++ command ++ " non esiste."

/-- `command_to_index` in `binary_KWS.py`: `{command: idx for idx, command in
enumerate(commands)}` — for a duplicate-free command list this is the index
of the command in the list. -/
def commandToIndex (commands : List String) (c : String) : ℕ :=
  commands.indexOf c

/-- Sample collection loop of `SpeechCommandsDataset.__init__`, generalized
over the sublist still to be scanned (`iter`) while labels are computed
against the full command list (`full`), exactly as the Python loop labels
with `command_to_index[command]`. A command whose directory listing is
`none` (the directory does not exist) contributes no samples. -/
def collectSamplesAux (datasetDir : String) (full : List String)
    (fs : String → Option (List String)) (iter : List String) :
    List (String × ℕ) :=
  iter.flatMap fun c =>
    match fs c with
    | some files =>
        (files.filter (fun f => String.endsWith f ".wav")).map
          (fun f => (datasetDir ++ "/" ++ c ++ "/" ++ f, commandToIndex full c))
    | none => []

/-- `self.samples` after `SpeechCommandsDataset.__init__` runs over the full
command list. -/
def collectSamples (datasetDir : String) (commands : List String)
    (fs : String → Option (List String)) : List (String × ℕ) :=
  collectSamplesAux datasetDir commands fs commands

/-- The warnings printed by `SpeechCommandsDataset.__init__`: one per
command whose directory is missing, in scan order. -/
def collectWarnings (datasetDir : String) (commands : List String)
    (fs : String → Option (List String)) : List String :=
  commands.flatMap fun c =>
    match fs c with
    | some _ => []
    | none => [missingDirWarning datasetDir c]

/-- C1: every element of `BinarizeSTE.forward` output is `1` or `-1`; an
element `x ≥ 0` (in particular `x = 0`) maps to `1` and `x < 0` maps to
`-1`; the output has one entry per input element. -/
theorem binarize_forward_sign (input : List ℚ) (x : ℚ) (hx : x ∈ input) :
    (binarizeElem x = 1 ∨ binarizeElem x = -1) ∧
    binarizeElem x ∈ BinarizeSTE.forward input ∧
    (0 ≤ x → binarizeElem x = 1) ∧
    (x < 0 → binarizeElem x = -1) ∧
    binarizeElem 0 = 1 ∧
    (BinarizeSTE.forward input).length = input.length := by
  refine ⟨?_, ?_, ?_, ?_, ?_, ?_⟩
  · by_cases h : 0 ≤ x
    · exact Or.inl (if_pos h)
    · exact Or.inr (if_neg h)
  · exact List.mem_map_of_mem binarizeElem hx
  · intro h; exact if_pos h
  · intro h; exact if_neg (not_le.mpr h)
  · rfl
  · exact List.length_map input binarizeElem

/-- Witness for C1 at the concrete tensor `[5, -3, 0]` and element `-3`. -/
theorem binarize_forward_sign_witness :
    (-3 : ℚ) ∈ [(5 : ℚ), -3, 0] ∧
    ((binarizeElem (-3) = 1 ∨ binarizeElem (-3) = -1) ∧
      binarizeElem (-3) ∈ BinarizeSTE.forward [(5 : ℚ), -3, 0] ∧
      (0 ≤ (-3 : ℚ) → binarizeElem (-3) = 1) ∧
      ((-3 : ℚ) < 0 → binarizeElem (-3) = -1) ∧
      binarizeElem 0 = 1 ∧
      (BinarizeSTE.forward [(5 : ℚ), -3, 0]).length = [(5 : ℚ), -3, 0].length) :=
  ⟨by decide, binarize_forward_sign [(5 : ℚ), -3, 0] (-3) (by decide)⟩

/-- C2: `BinarizeSTE.backward` returns the upstream gradient unchanged, for
every saved context, i.e. independently of the value the forward pass
received. -/
theorem binarize_backward_identity (ctx₁ ctx₂ grad : List ℚ) :
    BinarizeSTE.backward ctx₁ grad = grad ∧
    BinarizeSTE.backward ctx₁ grad = BinarizeSTE.backward ctx₂ grad :=
  ⟨rfl, rfl⟩

/-- C10: binarization is idempotent — applying `BinarizeSTE.forward` to its
own output returns the output unchanged. -/
theorem binarize_forward_idempotent (input : List ℚ) :
    BinarizeSTE.forward (BinarizeSTE.forward input) = BinarizeSTE.forward input := by
  unfold BinarizeSTE.forward
  rw [List.map_map]
  refine List.map_congr_left ?_
  intro x _
  show binarizeElem (binarizeElem x) = binarizeElem x
  unfold binarizeElem
  by_cases h : 0 ≤ x
  · simp [h]
  · simp [h]

/-- C4 counterexample: in the reference pipeline (`first.py`) a waveform of
4 samples at native rate 8 Hz is normalized to 8 samples, not 16000: the
reference pipeline never resamples to the canonical 16 kHz rate. -/
theorem fixlength_reference_not_16000 :
    (FirstPy.preprocessAudio 8 (List.replicate 4 (0 : ℚ))).length ≠ 16000 := by
  decide

/-- C4 amended: the binarized pipeline (`binary_KWS.py`) always emits
exactly 16000 samples; the reference pipeline (`first.py`) emits exactly
`sampleRate` samples — one second at the waveform's NATIVE rate, without
resampling. -/
theorem fixlength_output_length (waveform : List ℚ) (sampleRate : ℕ) :
    (fixLengthBinary waveform).length = 16000 ∧
    (FirstPy.preprocessAudio sampleRate waveform).length = sampleRate := by
  constructor
  · unfold fixLengthBinary
    by_cases h : waveform.length < 16000
    · simp only [h, if_pos, List.length_append, List.length_replicate]
      omega
    · simp only [h, if_neg, not_false_iff, List.length_take]
      omega
  · unfold FirstPy.preprocessAudio
    by_cases h : 1 * sampleRate < waveform.length
    · simp only [h, if_pos, List.length_take]
      omega
    · simp only [h, if_neg, not_false_iff, List.length_append, List.length_replicate]
      omega

end BinaryKWS

namespace BinaryKWS

/-- C3: the forward pass of `BinarizeLinearSTE` leaves the stored continuous
weight and bias unmodified, and its output is exactly `F.linear` applied to
the binarized views of the input, the weight and the bias, each binarized
elementwise by the same sign function. -/
theorem binarize_linear_forward (layer : BinarizeLinearSTE) (input : List ℚ) :
    (BinarizeLinearSTE.forward layer input).2 = layer ∧
    (BinarizeLinearSTE.forward layer input).1 =
      functionalLinear (input.map binarizeElem)
        (layer.weight.map (fun row => row.map binarizeElem))
        (layer.bias.map (fun b => b.map binarizeElem)) :=
  ⟨rfl, rfl⟩

/-- C5: for a duplicate-free command vocabulary, the label-index map is a
bijection onto the set of classes below `num_classes` and every collected
sample's label lies in that range (labels are always computed with the one
map built from the full command list). -/
theorem command_index_bijection (commands : List String) (datasetDir : String)
    (fs : String → Option (List String)) (hnd : commands.Nodup) :
    (∀ c ∈ commands, commandToIndex commands c < commands.length) ∧
    (∀ c₁ ∈ commands, ∀ c₂ ∈ commands,
      commandToIndex commands c₁ = commandToIndex commands c₂ → c₁ = c₂) ∧
    (∀ i : ℕ, i < commands.length → ∃ c ∈ commands, commandToIndex commands c = i) ∧
    (∀ s ∈ collectSamples datasetDir commands fs, s.2 < commands.length) := by
  refine ⟨?_, ?_, ?_, ?_⟩
  · intro c hc
    exact List.indexOf_lt_length.mpr hc
  · intro c₁ h₁ c₂ h₂ h
    exact (List.indexOf_inj h₁ h₂).mp h
  · intro i hi
    refine ⟨commands.get ⟨i, hi⟩, commands.get_mem i hi, ?_⟩
    exact List.indexOf_getElem hnd i hi
  · intro s hs
    unfold collectSamples collectSamplesAux at hs
    rcases List.mem_flatMap.mp hs with ⟨c, hc, hsc⟩
    cases hfs : fs c with
    | none => rw [hfs] at hsc; cases hsc
    | some files =>
        rw [hfs] at hsc
        rcases List.mem_map.mp hsc with ⟨f, _, hf⟩
        rw [← hf]
        exact List.indexOf_lt_length.mpr hc

/-- Witness for C5 on the concrete vocabulary of two commands with one
`.wav` file per directory. -/
theorem command_index_bijection_witness :
    (["yes", "no"] : List String).Nodup ∧
    ((∀ c ∈ ["yes", "no"], commandToIndex ["yes", "no"] c < (["yes", "no"] : List String).length) ∧
      (∀ c₁ ∈ ["yes", "no"], ∀ c₂ ∈ ["yes", "no"],
        commandToIndex ["yes", "no"] c₁ = commandToIndex ["yes", "no"] c₂ → c₁ = c₂) ∧
      (∀ i : ℕ, i < (["yes", "no"] : List String).length →
        ∃ c ∈ ["yes", "no"], commandToIndex ["yes", "no"] c = i) ∧
      (∀ s ∈ collectSamples "./speech-commands" ["yes", "no"] (fun _ => some ["a.wav"]),
        s.2 < (["yes", "no"] : List String).length)) :=
  ⟨by decide,
    command_index_bijection ["yes", "no"] "./speech-commands"
      (fun _ => some ["a.wav"]) (by decide)⟩

/-- C9: a command whose directory is missing contributes zero samples while
the scan still collects every sample of the commands before and after it,
and the corresponding warning message is printed. -/
theorem missing_dir_warns_and_continues (datasetDir : String)
    (full pre post : List String) (c : String)
    (fs : String → Option (List String)) (h : fs c = none) :
    collectSamplesAux datasetDir full fs (pre ++ c :: post) =
      collectSamplesAux datasetDir full fs pre ++
        collectSamplesAux datasetDir full fs post ∧
    missingDirWarning datasetDir c ∈ collectWarnings datasetDir (pre ++ c :: post) fs := by
  constructor
  · unfold collectSamplesAux
    rw [List.flatMap_append, List.flatMap_cons, h]
    simp
  · unfold collectWarnings
    refine List.mem_flatMap.mpr ⟨c, ?_, ?_⟩
    · simp
    · rw [h]; exact List.mem_singleton.mpr rfl

/-- Witness for C9: scanning two commands where the directory of the second
is missing keeps the samples of the first and records the warning. -/
theorem missing_dir_warns_and_continues_witness :
    ((fun s => if s = "yes" then some ["a.wav"] else none) "no" =
      (none : Option (List String))) ∧
    (collectSamplesAux "./speech-commands" ["yes", "no"]
        (fun s => if s = "yes" then some ["a.wav"] else none) (["yes"] ++ "no" :: []) =
      collectSamplesAux "./speech-commands" ["yes", "no"]
        (fun s => if s = "yes" then some ["a.wav"] else none) ["yes"] ++
        collectSamplesAux "./speech-commands" ["yes", "no"]
          (fun s => if s = "yes" then some ["a.wav"] else none) [] ∧
      missingDirWarning "./speech-commands" "no" ∈
        collectWarnings "./speech-commands" (["yes"] ++ "no" :: [])
          (fun s => if s = "yes" then some ["a.wav"] else none)) :=
  ⟨by decide,
    missing_dir_warns_and_continues "./speech-commands" ["yes", "no"] ["yes"] [] "no"
      (fun s => if s = "yes" then some ["a.wav"] else none) (by decide)⟩

end BinaryKWS

namespace FirstPy

/-- A named model parameter as seen by `model.named_parameters()` in
`first.py`: an identifier such as `model.0.weight` and its value as a
matrix of shape `(H, D)` in row-major order (a bias is a 1-row matrix). -/
structure NamedParam where
  name : String
  rows : List (List ℚ)

/-- Row-major flattening, `param.detach().numpy().flatten()`. -/
def flattenRowMajor (rows : List (List ℚ)) : List ℚ :=
  rows.flatten

/-- File name built in the export loop of `first.py`:
`f"{name.replace('.', '_')}.txt"`. -/
def exportFilename (name : String) : String :=
  name.replace "." "_" ++ ".txt"

/-- Model of `numpy.savetxt(filename, X, delimiter=',')` applied to a 1-D
array `X`, as the export loop does with `weight.flatten()`: numpy writes a
1-D array one entry per output line; the delimiter string only separates
the columns inside a single line, so for a 1-D array it is never emitted.
The result is the grid of numbers written, one inner list per line. -/
def savetxt1d (xs : List ℚ) : List (List ℚ) :=
  xs.map (fun v => [v])

/-- The grid of numbers the export loop writes for one parameter. -/
def exportGrid (p : NamedParam) : List (List ℚ) :=
  savetxt1d (flattenRowMajor p.rows)

end FirstPy

namespace FirstPy

/-- Helper: the flattening of a matrix whose rows all have length `D` has
`rows.length * D` entries. -/
theorem flatten_length_const (rows : List (List ℚ)) (D : ℕ)
    (hD : ∀ r ∈ rows, r.length = D) : rows.flatten.length = rows.length * D := by
  induction rows with
  | nil => simp
  | cons r rest ih =>
      have hr : r.length = D := hD r (List.mem_cons_self r rest)
      have hrest : ∀ q ∈ rest, q.length = D := fun q hq => hD q (List.mem_cons_of_mem r hq)
      simp only [List.flatten_cons, List.length_append, List.length_cons, ih hrest, hr]
      ring

/-- Helper: flattening the one-entry-per-line grid recovers the array. -/
theorem savetxt1d_flatten (xs : List ℚ) : (savetxt1d xs).flatten = xs := by
  induction xs with
  | nil => rfl
  | cons x rest ih => simp only [savetxt1d, List.map_cons, List.flatten_cons,
      List.singleton_append, List.cons.injEq, true_and] at ih ⊢; exact ih

/-- C6 counterexample: exporting the parameter `layer1.weight` with value
`[[1, 2]]` (shape 1×2) writes the two numbers on two separate lines,
`[[1], [2]]`, not as the single comma-joined line `[[1, 2]]`: `np.savetxt`
on a 1-D array never emits the comma delimiter. -/
theorem weight_export_not_comma_separated :
    exportGrid ⟨"layer1.weight", [[1, 2]]⟩ = [[(1 : ℚ)], [2]] ∧
    ([[(1 : ℚ)], [2]] : List (List ℚ)) ≠ [[(1 : ℚ), 2]] := by
  constructor
  · rfl
  · decide

/-- C6 amended: for a parameter of shape `(H, D)` the export writes a file
named after the identifier with `.` replaced by `_`, containing exactly
`H * D` numbers equal to the in-memory values in row-major order — but one
number per line (newline-separated), not comma-separated. -/
theorem weight_export (p : NamedParam) (D : ℕ)
    (hD : ∀ r ∈ p.rows, r.length = D) :
    exportFilename p.name = p.name.replace "." "_" ++ ".txt" ∧
    (exportGrid p).flatten = flattenRowMajor p.rows ∧
    (exportGrid p).length = p.rows.length * D ∧
    (∀ line ∈ exportGrid p, line.length = 1) := by
  refine ⟨rfl, savetxt1d_flatten _, ?_, ?_⟩
  · show (savetxt1d (flattenRowMajor p.rows)).length = p.rows.length * D
    rw [savetxt1d, List.length_map]
    exact flatten_length_const p.rows D hD
  · intro line hline
    rcases List.mem_map.mp hline with ⟨v, _, hv⟩
    rw [← hv]
    rfl

/-- Witness for C6 on the parameter `layer1.weight` with value
`[[1, 2], [3, 4]]` of shape 2×2. -/
theorem weight_export_witness :
    (∀ r ∈ ([[1, 2], [3, 4]] : List (List ℚ)), r.length = 2) ∧
    (exportFilename "layer1.weight" = String.replace "layer1.weight" "." "_" ++ ".txt" ∧
      (exportGrid ⟨"layer1.weight", [[1, 2], [3, 4]]⟩).flatten =
        flattenRowMajor [[1, 2], [3, 4]] ∧
      (exportGrid ⟨"layer1.weight", [[1, 2], [3, 4]]⟩).length =
        ([[1, 2], [3, 4]] : List (List ℚ)).length * 2 ∧
      (∀ line ∈ exportGrid ⟨"layer1.weight", [[1, 2], [3, 4]]⟩, line.length = 1)) :=
  ⟨by decide, weight_export ⟨"layer1.weight", [[1, 2], [3, 4]]⟩ 2 (by decide)⟩

end FirstPy

namespace BinaryKWS

/-- The stabilizing constant `1e-5` added to the standard deviation in the
normalization step of `binary_KWS.py`. -/
def eps : ℚ := 1 / 100000

/-- Mean of a tensor, `features.mean()`. -/
def listMean (xs : List ℚ) : ℚ :=
  xs.sum / (xs.length : ℚ)

/-- Unbiased sample variance — the square of `features.std()`, which in
torch uses the `n − 1` Bessel correction. -/
def listVar (xs : List ℚ) : ℚ :=
  (xs.map (fun x => (x - listMean xs) ^ 2)).sum / ((xs.length : ℚ) - 1)

/-- Normalization `(features - features.mean()) / (features.std() + 1e-5)`
of `binary_KWS.py`, with the standard deviation `s` — the nonnegative
square root of `listVar` — passed explicitly because it is irrational in
general; the theorems quantify over every `s` with `s ≥ 0` and
`s ^ 2 = listVar xs`. -/
def normalizeWith (s : ℚ) (xs : List ℚ) : List ℚ :=
  xs.map (fun x => (x - listMean xs) / (s + eps))

/-- Helper: dividing every mapped term by a common denominator divides the
sum. -/
theorem sum_map_div (xs : List ℚ) (f : ℚ → ℚ) (d : ℚ) :
    (xs.map (fun x => f x / d)).sum = (xs.map f).sum / d := by
  induction xs with
  | nil => simp
  | cons a rest ih =>
      simp only [List.map_cons, List.sum_cons, ih, div_add_div_same]

/-- Helper: summing `x - m` over a list subtracts `m` once per element. -/
theorem sum_map_sub_const (xs : List ℚ) (m : ℚ) :
    (xs.map (fun x => x - m)).sum = xs.sum - (xs.length : ℚ) * m := by
  induction xs with
  | nil => simp
  | cons a rest ih =>
      simp only [List.map_cons, List.sum_cons, ih, List.length_cons]
      push_cast
      ring

/-- Helper: centering a nonempty list at its own mean gives sum zero. -/
theorem sum_centered (xs : List ℚ) (h : xs ≠ []) :
    (xs.map (fun x => x - listMean xs)).sum = 0 := by
  have hn : ((xs.length : ℚ)) ≠ 0 := by
    have := List.length_pos.mpr h
    exact_mod_cast Nat.pos_iff_ne_zero.mp this
  rw [sum_map_sub_const, listMean]
  field_simp

/-- Helper: the sum of a constant list. -/
theorem sum_of_const (xs : List ℚ) (c : ℚ) (h : ∀ a ∈ xs, a = c) :
    xs.sum = (xs.length : ℚ) * c := by
  induction xs with
  | nil => simp
  | cons a rest ih =>
      have ha : a = c := h a (List.mem_cons_self a rest)
      have hrest := ih (fun b hb => h b (List.mem_cons_of_mem a hb))
      simp only [List.sum_cons, hrest, List.length_cons, ha]
      push_cast
      ring

/-- C7: the normalization denominator `std + 1e-5` is never zero (also for
a constant tensor, whose std is zero); the output has mean exactly `0` and
variance `(s / (s + ε)) ^ 2`, i.e. standard deviation `s / (s + ε)`; a
constant tensor maps to all zeros instead of faulting; and for a
non-constant tensor the output standard deviation lies in `(0, 1)` within
`ε / s` of `1`. -/
theorem feature_normalization (xs : List ℚ) (s : ℚ) (h2 : 2 ≤ xs.length)
    (hs0 : 0 ≤ s) (hsv : s ^ 2 = listVar xs) :
    s + eps ≠ 0 ∧
    listMean (normalizeWith s xs) = 0 ∧
    listVar (normalizeWith s xs) = s ^ 2 / (s + eps) ^ 2 ∧
    ((∀ a ∈ xs, ∀ b ∈ xs, a = b) → ∀ y ∈ normalizeWith s xs, y = 0) ∧
    ((∃ a ∈ xs, ∃ b ∈ xs, a ≠ b) →
      0 < s / (s + eps) ∧ s / (s + eps) < 1 ∧ 1 - s / (s + eps) ≤ eps / s) := by
  have heps : (0 : ℚ) < eps := by norm_num [eps]
  have hd : (0 : ℚ) < s + eps := by linarith
  have hdne : s + eps ≠ 0 := ne_of_gt hd
  have hne : xs ≠ [] := by
    intro hnil
    rw [hnil] at h2
    simp at h2
  have hnQ : ((xs.length : ℚ)) ≠ 0 := by
    have := List.length_pos.mpr hne
    exact_mod_cast Nat.pos_iff_ne_zero.mp this
  have hn1 : ((xs.length : ℚ)) - 1 ≠ 0 := by
    have h2Q : (2 : ℚ) ≤ (xs.length : ℚ) := by exact_mod_cast h2
    intro hzero
    linarith
  have hc : (xs.map (fun x => x - listMean xs)).sum = 0 := sum_centered xs hne
  have hmean : listMean (normalizeWith s xs) = 0 := by
    rw [listMean, normalizeWith,
      sum_map_div xs (fun x => x - listMean xs) (s + eps), hc]
    simp
  refine ⟨hdne, hmean, ?_, ?_, ?_⟩
  · rw [listVar, hmean]
    simp only [sub_zero]
    rw [normalizeWith, List.map_map, List.length_map]
    have hsq : (fun x => ((x - listMean xs) / (s + eps)) ^ 2) =
        (fun x => (x - listMean xs) ^ 2 / ((s + eps) ^ 2)) := by
      funext x
      exact div_pow _ _ 2
    show (xs.map ((fun y => y ^ 2) ∘ (fun x => (x - listMean xs) / (s + eps)))).sum /
        ((xs.length : ℚ) - 1) = s ^ 2 / (s + eps) ^ 2
    rw [show ((fun y => y ^ 2) ∘ (fun x => (x - listMean xs) / (s + eps))) =
        (fun x => ((x - listMean xs) / (s + eps)) ^ 2) from rfl, hsq]
    rw [sum_map_div xs (fun x => (x - listMean xs) ^ 2) ((s + eps) ^ 2), hsv, listVar]
    rw [div_div, div_div, mul_comm ((s + eps) ^ 2) ((xs.length : ℚ) - 1)]
  · intro hconst y hy
    rcases List.mem_map.mp hy with ⟨x, hx, hyx⟩
    have hsum : xs.sum = (xs.length : ℚ) * x :=
      sum_of_const xs x (fun a ha => hconst a ha x hx)
    have hmx : listMean xs = x := by
      rw [listMean, hsum]
      field_simp
    rw [← hyx, hmx]
    simp
  · rintro ⟨a, ha, b, hb, hab⟩
    have hex : ∃ x ∈ xs, x ≠ listMean xs := by
      by_contra hcon
      push_neg at hcon
      exact hab ((hcon a ha).trans (hcon b hb).symm)
    rcases hex with ⟨x, hx, hxm⟩
    have hterm : 0 < (x - listMean xs) ^ 2 :=
      pow_two_pos_of_ne_zero (sub_ne_zero.mpr hxm)
    have hSpos : 0 < (xs.map (fun z => (z - listMean xs) ^ 2)).sum := by
      have hle : (x - listMean xs) ^ 2 ≤ (xs.map (fun z => (z - listMean xs) ^ 2)).sum := by
        refine List.single_le_sum ?_ _ (List.mem_map_of_mem _ hx)
        intro y hy
        rcases List.mem_map.mp hy with ⟨z, _, hz⟩
        rw [← hz]
        exact sq_nonneg _
      linarith
    have hvpos : 0 < listVar xs := by
      have h2Q : (2 : ℚ) ≤ (xs.length : ℚ) := by exact_mod_cast h2
      exact div_pos hSpos (by linarith)
    have hspos : 0 < s := by
      rcases lt_or_eq_of_le hs0 with hlt | heq
      · exact hlt
      · rw [← heq] at hsv
        rw [← hsv] at hvpos
        norm_num at hvpos
    refine ⟨div_pos hspos hd, (div_lt_one hd).mpr (by linarith), ?_⟩
    have h1 : 1 - s / (s + eps) = eps / (s + eps) := by
      field_simp
    rw [h1, div_le_div_iff₀ hd hspos]
    nlinarith [sq_nonneg eps]

/-- Witness for C7 at the tensor `[0, 1, 2]`, whose unbiased variance is
`1` and standard deviation `s = 1`. -/
theorem feature_normalization_witness :
    (2 ≤ ([0, 1, 2] : List ℚ).length ∧ (0 : ℚ) ≤ 1 ∧
      (1 : ℚ) ^ 2 = listVar [0, 1, 2]) ∧
    ((1 : ℚ) + eps ≠ 0 ∧
      listMean (normalizeWith 1 [0, 1, 2]) = 0 ∧
      listVar (normalizeWith 1 [0, 1, 2]) = (1 : ℚ) ^ 2 / (1 + eps) ^ 2 ∧
      ((∀ a ∈ ([0, 1, 2] : List ℚ), ∀ b ∈ ([0, 1, 2] : List ℚ), a = b) →
        ∀ y ∈ normalizeWith 1 [0, 1, 2], y = 0) ∧
      ((∃ a ∈ ([0, 1, 2] : List ℚ), ∃ b ∈ ([0, 1, 2] : List ℚ), a ≠ b) →
        0 < (1 : ℚ) / (1 + eps) ∧ (1 : ℚ) / (1 + eps) < 1 ∧
          1 - (1 : ℚ) / (1 + eps) ≤ eps / 1)) :=
  ⟨⟨by decide, by norm_num, by norm_num [listVar, listMean]⟩,
    feature_normalization [0, 1, 2] 1 (by decide) (by norm_num)
      (by norm_num [listVar, listMean])⟩

end BinaryKWS

namespace BinaryKWS

/-- Accumulator step of `torch.max(outputs.data, 1)` on one logit vector:
keeps the running maximum and its (first) index. -/
def argmaxAux (best : ℚ × ℕ) (i : ℕ) : List ℚ → ℚ × ℕ
  | [] => best
  | x :: rest => argmaxAux (if best.1 < x then (x, i) else best) (i + 1) rest

/-- Predicted class for one example: the index of the (first) maximal logit,
as returned by `torch.max(outputs.data, 1)` in the evaluation loop. -/
def argmaxIdx (logits : List ℚ) : ℕ :=
  match logits with
  | [] => 0
  | x :: rest => (argmaxAux (x, 0) 1 rest).2

/-- The running `(correct, total)` counters of the evaluation loop of
`binary_KWS.py` over the (flattened) held-out set: `total` adds one per
example, `correct` adds one when the argmax prediction equals the label. -/
def evalCounts (testset : List (List ℚ × ℕ)) : ℕ × ℕ :=
  testset.foldl
    (fun acc ex => (acc.1 + (if argmaxIdx ex.1 = ex.2 then 1 else 0), acc.2 + 1))
    (0, 0)

/-- The value printed by `'{:.2f}'.format(100 * correct / total)`, as an
exact rational before rounding to two decimal places. -/
def accuracyPct (testset : List (List ℚ × ℕ)) : ℚ :=
  100 * ((evalCounts testset).1 : ℚ) / ((evalCounts testset).2 : ℚ)

/-- Helper: the evaluation fold, started from any counter pair, adds at
most one to `correct` per example and exactly one to `total`. -/
theorem evalCounts_foldl (testset : List (List ℚ × ℕ)) (a b : ℕ) :
    (testset.foldl
      (fun acc ex => (acc.1 + (if argmaxIdx ex.1 = ex.2 then 1 else 0), acc.2 + 1))
      (a, b)).2 = b + testset.length ∧
    (testset.foldl
      (fun acc ex => (acc.1 + (if argmaxIdx ex.1 = ex.2 then 1 else 0), acc.2 + 1))
      (a, b)).1 ≤ a + testset.length := by
  induction testset generalizing a b with
  | nil => simp
  | cons ex rest ih =>
      rcases ih (a + (if argmaxIdx ex.1 = ex.2 then 1 else 0)) (b + 1) with ⟨h2, h1⟩
      constructor
      · rw [List.foldl_cons, h2, List.length_cons]
        omega
      · rw [List.foldl_cons]
        refine h1.trans ?_
        have : (if argmaxIdx ex.1 = ex.2 then 1 else 0) ≤ 1 := by
          by_cases h : argmaxIdx ex.1 = ex.2 <;> simp [h]
        simp only [List.length_cons]
        omega

/-- C8: on a nonempty held-out set the evaluation loop counts one `total`
per example and at most one `correct` per example, so the reported accuracy
`100 * correct / total` is a valid percentage in `[0, 100]`. -/
theorem eval_accuracy_percentage (testset : List (List ℚ × ℕ))
    (h : testset ≠ []) :
    (evalCounts testset).2 = testset.length ∧
    (evalCounts testset).1 ≤ (evalCounts testset).2 ∧
    0 ≤ accuracyPct testset ∧ accuracyPct testset ≤ 100 := by
  rcases evalCounts_foldl testset 0 0 with ⟨h2, h1⟩
  have htot : (evalCounts testset).2 = testset.length := by
    rw [evalCounts, h2]
    omega
  have hcor : (evalCounts testset).1 ≤ (evalCounts testset).2 := by
    rw [evalCounts] at htot ⊢
    omega
  have hpos : 0 < testset.length := List.length_pos.mpr h
  have htQ : (0 : ℚ) < ((evalCounts testset).2 : ℚ) := by
    rw [htot]
    exact_mod_cast hpos
  refine ⟨htot, hcor, ?_, ?_⟩
  · rw [accuracyPct]
    positivity
  · rw [accuracyPct, div_le_iff₀ htQ]
    have hcQ : ((evalCounts testset).1 : ℚ) ≤ ((evalCounts testset).2 : ℚ) := by
      exact_mod_cast hcor
    nlinarith

/-- Witness for C8 on a one-example held-out set whose logits `[1, 2]` give
argmax class `1`, equal to the label. -/
theorem eval_accuracy_percentage_witness :
    ([([(1 : ℚ), 2], 1)] : List (List ℚ × ℕ)) ≠ [] ∧
    ((evalCounts [([(1 : ℚ), 2], 1)]).2 = ([([(1 : ℚ), 2], 1)] : List (List ℚ × ℕ)).length ∧
      (evalCounts [([(1 : ℚ), 2], 1)]).1 ≤ (evalCounts [([(1 : ℚ), 2], 1)]).2 ∧
      0 ≤ accuracyPct [([(1 : ℚ), 2], 1)] ∧ accuracyPct [([(1 : ℚ), 2], 1)] ≤ 100) :=
  ⟨by decide, eval_accuracy_percentage [([(1 : ℚ), 2], 1)] (by decide)⟩

end BinaryKWS
